import Mathlib

/-!
Verification development for the FreeIPA CSV import/reconciliation script
(`ipa_import.py`).  The script's pure core is shallowly embedded here:

* Python strings are Lean `String`s (lists of Unicode codepoints); the
  character-level helpers (`pyStripList`, `pySplitWs`, `splitOnChar`, ...)
  mirror the corresponding `str` methods used by the source.
* Python dicts (whose iteration order is insertion order) are embedded as
  association lists `Dict α := List (String × α)` holding each key once;
  `dictAssign` is `d[k] = v`, `dictUpdate` is `d.update(pairs)` and
  `dListAppend` is `d[k].append(x)` on a `defaultdict(list)`.
* Python sets are embedded as `List String` considered up to membership;
  `sUnion`/`sDiff` mirror `|` and `-` on sets.
* The `subprocess` boundary of `find_group_changes` (`ipa group-show`) is
  embedded as a function returning a `GroupShowResult` whose `exitCode`
  is the process exit status the source compares against 0, and
  `commit_changes` is embedded as the list of command invocations it issues.
-/

set_option maxRecDepth 4096

namespace IpaImport

/-! ### Character and string helpers mirroring Python `str` methods -/

/-- Whitespace characters recognized by Python's `str.split()` / `str.strip()`
(restricted to the ASCII whitespace this repository's data can contain). -/
def isPySpace (c : Char) : Bool :=
  c = ' ' || c = '\t' || c = '\n' || c = '\r' || c = '\x0b' || c = '\x0c'

/-- Drop the longest suffix of `l` whose characters satisfy `p`. -/
def rdropWhileP (p : Char → Bool) (l : List Char) : List Char :=
  (l.reverse.dropWhile p).reverse

/-- Python `s.strip(chars)` semantics: remove characters satisfying `p`
from both ends. -/
def stripBy (p : Char → Bool) (l : List Char) : List Char :=
  rdropWhileP p (l.dropWhile p)

/-- Python `s.strip()` on the underlying character list. -/
def pyStripList (l : List Char) : List Char :=
  stripBy isPySpace l

/-- Python `s.strip()`. -/
def pyStrip (s : String) : String :=
  String.mk (pyStripList s.data)

/-- Accumulator-based worker for Python `str.split()`: splits on runs of
whitespace, producing no empty tokens. -/
def splitWsAux : List Char → List Char → List (List Char)
  | [], acc => if acc = [] then [] else [acc.reverse]
  | c :: rest, acc =>
    if isPySpace c then
      if acc = [] then splitWsAux rest [] else acc.reverse :: splitWsAux rest []
    else
      splitWsAux rest (c :: acc)

/-- Python `s.split()` (split on whitespace, dropping empty tokens). -/
def pySplitWs (l : List Char) : List (List Char) :=
  splitWsAux l []

/-- Python `'_'.join(tokens)`. -/
def joinUnd : List (List Char) → List Char
  | [] => []
  | [t] => t
  | t :: ts => t ++ '_' :: joinUnd ts

/-- Python `s.split(sep)` for a one-character separator: keeps empty
segments, and the empty string splits into `[""]`. -/
def splitOnChar (sep : Char) : List Char → List (List Char)
  | [] => [[]]
  | c :: rest =>
    if c = sep then
      [] :: splitOnChar sep rest
    else
      match splitOnChar sep rest with
      | t :: ts => (c :: t) :: ts
      | [] => [[c]]

/-- Python `s.replace(pat, rep)` for a one-character pattern. -/
def charReplace (pat : Char) (rep : List Char) (l : List Char) : List Char :=
  l.flatMap fun c => if c = pat then rep else [c]

/-- Python `str.lower` restricted to the characters this repository's data
exercises: ASCII letters and the three Latin umlaut capitals; identity on
everything else. -/
def pyLowerChar : Char → Char
  | 'A' => 'a' | 'B' => 'b' | 'C' => 'c' | 'D' => 'd' | 'E' => 'e'
  | 'F' => 'f' | 'G' => 'g' | 'H' => 'h' | 'I' => 'i' | 'J' => 'j'
  | 'K' => 'k' | 'L' => 'l' | 'M' => 'm' | 'N' => 'n' | 'O' => 'o'
  | 'P' => 'p' | 'Q' => 'q' | 'R' => 'r' | 'S' => 's' | 'T' => 't'
  | 'U' => 'u' | 'V' => 'v' | 'W' => 'w' | 'X' => 'x' | 'Y' => 'y'
  | 'Z' => 'z'
  | 'Ä' => 'ä' | 'Ö' => 'ö' | 'Ü' => 'ü'
  | c => c

/-- Canonical-with-compatibility (NFKD) decomposition of one codepoint,
from the `unicodedata` table restricted to the Latin letters this
repository's data exercises; identity on every other codepoint.  The
combining marks produced here are above U+007F and are therefore removed
by the subsequent `encode('ascii', 'ignore')` step. -/
def nfkdChar : Char → List Char
  | 'ä' => ['a', '̈'] | 'ö' => ['o', '̈'] | 'ü' => ['u', '̈']
  | 'Ä' => ['A', '̈'] | 'Ö' => ['O', '̈'] | 'Ü' => ['U', '̈']
  | 'é' => ['e', '́'] | 'è' => ['e', '̀'] | 'á' => ['a', '́']
  | 'à' => ['a', '̀'] | c => [c]

/-- Python `unicodedata.normalize('NFKD', s).encode('ascii', 'ignore')`:
decompose, then drop every non-ASCII codepoint. -/
def nfkdAscii (l : List Char) : List Char :=
  (l.flatMap nfkdChar).filter fun c => c.toNat < 128

/-- Characters kept by the `_groupname_strip_re` substitution, whose
pattern removes everything but ASCII letters, digits, underscore, slash
and hyphen. -/
def isLegalGroupChar (c : Char) : Bool :=
  ('A' ≤ c && c ≤ 'Z') || ('a' ≤ c && c ≤ 'z') || ('0' ≤ c && c ≤ '9') ||
  c = '_' || c = '/' || c = '-'

/-! ### Association lists embedding Python dicts -/

/-- A Python dict with string keys, in insertion order, each key held once. -/
abbrev Dict (α : Type) := List (String × α)

/-- Python `d.get(k)` / `d[k]`. -/
def dictGet {α : Type} (d : Dict α) (k : String) : Option α :=
  match d with
  | [] => none
  | (k', v) :: rest => if k' = k then some v else dictGet rest k

/-- Python `d[k] = v`: replace the value at `k` in place, or append. -/
def dictAssign {α : Type} (d : Dict α) (k : String) (v : α) : Dict α :=
  match d with
  | [] => [(k, v)]
  | (k', v') :: rest =>
    if k' = k then (k, v) :: rest else (k', v') :: dictAssign rest k v

/-- Python `d.update(pairs)`. -/
def dictUpdate {α : Type} (d : Dict α) (ps : List (String × α)) : Dict α :=
  ps.foldl (fun d p => dictAssign d p.1 p.2) d

/-- Python `d[k].append(x)` on a `collections.defaultdict(list)`. -/
def dListAppend {α : Type} (d : Dict (List α)) (k : String) (x : α) :
    Dict (List α) :=
  match d with
  | [] => [(k, [x])]
  | (k', l) :: rest =>
    if k' = k then (k, l ++ [x]) :: rest else (k', l) :: dListAppend rest k x

/-- The list stored at `k`, empty when `k` is absent. -/
def lookupList {α : Type} (d : Dict (List α)) (k : String) : List α :=
  (dictGet d k).getD []

/-- Python `list(d)` / `k in d`: the keys, in insertion order. -/
def dictKeys {α : Type} (d : Dict α) : List String :=
  d.map Prod.fst

/-! ### Lists embedding Python sets (considered up to membership) -/

/-- Python set union `a | b`. -/
def sUnion (a b : List String) : List String :=
  (a ++ b).dedup

/-- Python set difference `a - b`. -/
def sDiff (a b : List String) : List String :=
  a.dedup.filter fun x => !(decide (x ∈ b))

/-! ### Data model -/

/-- One CSV row as produced by `read_csv_file` (the `CSV_MAP` projection),
before `fix_csv_group_names` replaces the raw group field by a set. -/
structure RawEntry where
  user_login : String
  first_name : String
  last_name : String
  email_address : String
  telephone_number : String
  mobile_telephone_number : String
  member_of_groups : String
  deriving DecidableEq, Repr

/-- A CSV entry after `fix_csv_group_names`: `member_of_groups` is now a set
of canonical group names. -/
structure CsvEntry where
  user_login : String
  first_name : String
  last_name : String
  email_address : String
  telephone_number : String
  mobile_telephone_number : String
  member_of_groups : List String
  deriving DecidableEq, Repr

/-- A directory record as produced by `parse_freeipa_output` followed by
`fix_ipa_groups`.  A key missing from the parsed dict is embedded as the
empty string (for scalar fields, matching `old.get(key, '')`) or the empty
list (for `member_of_groups`, matching `old.get('member_of_groups', set())`).
`query_ipa` yields the empty dict when the user does not exist; the empty
dict (falsy in `if old:`) is embedded as `none` in `Option IpaRecord`. -/
structure IpaRecord where
  first_name : String
  last_name : String
  email_address : String
  telephone_number : String
  mobile_telephone_number : String
  member_of_groups : List String
  deriving DecidableEq, Repr

/-! ### Config section -/

/-- Groups that users get added to automatically. -/
def DEFAULT_GROUPS : List String := ["ipausers"]

/-- The five tracked attributes. -/
inductive Attr
  | first_name | last_name | email_address
  | telephone_number | mobile_telephone_number
  deriving DecidableEq, Repr

/-- List of used IPA fields with their corresponding command line tool flag
name, in the source dict's insertion order. -/
def IPA_CMDLINE_MAP : List (Attr × String) :=
  [(.first_name, "first"), (.last_name, "last"), (.email_address, "email"),
   (.telephone_number, "phone"), (.mobile_telephone_number, "mobile")]

/-- Field projection `new[key]` on a CSV entry. -/
def csvAttr (e : CsvEntry) : Attr → String
  | .first_name => e.first_name
  | .last_name => e.last_name
  | .email_address => e.email_address
  | .telephone_number => e.telephone_number
  | .mobile_telephone_number => e.mobile_telephone_number

/-- Field projection `old.get(key, '')` on a directory record. -/
def ipaAttr (r : IpaRecord) : Attr → String
  | .first_name => r.first_name
  | .last_name => r.last_name
  | .email_address => r.email_address
  | .telephone_number => r.telephone_number
  | .mobile_telephone_number => r.mobile_telephone_number

/-! ### fix_csv_group_names -/

/-- Character that separates groups in csv field. -/
def GROUP_SEP : Char := '/'

/-- Replace umlaut characters: the loop
`for umlaut, replacement in zip('äöü', 'ae oe ue'.split())`. -/
def umlautReplace (l : List Char) : List Char :=
  charReplace 'ü' ['u', 'e']
    (charReplace 'ö' ['o', 'e'] (charReplace 'ä' ['a', 'e'] l))

/-- The whole normalization pipeline of `fix_csv_group_names` applied to the
already-stripped original name: `'_'.join(s.split()).lower()`, umlaut
replacement, NFKD + ASCII projection, and removal of illegal characters. -/
def normalizedName (orig : List Char) : List Char :=
  (nfkdAscii (umlautReplace ((joinUnd (pySplitWs orig)).map pyLowerChar))).filter
    isLegalGroupChar

/-- Characters stripped from the raw group field:
`strip(' ' + GROUP_SEP)`. -/
def isStripGroupChar (c : Char) : Bool :=
  c = ' ' || c = GROUP_SEP

/-- For one raw `member_of_groups` field: the normalized segments
(`group_name.split(GROUP_SEP)`) and the original segments
(`original_group_name.split(GROUP_SEP)`). -/
def entryGroupData (raw : String) : List (List Char) × List (List Char) :=
  let orig := stripBy isStripGroupChar raw.data
  (splitOnChar GROUP_SEP (normalizedName orig), splitOnChar GROUP_SEP orig)

/-- The `zip(group_names, original_group_name.split(GROUP_SEP))` pairs fed
to `group_descriptions.update` for one entry. -/
def entryPairs (raw : String) : List (String × String) :=
  ((entryGroupData raw).1.zip (entryGroupData raw).2).map fun p =>
    (String.mk p.1, String.mk p.2)

/-- The per-entry group set:
`set(group for group in group_names if group != '')`. -/
def entryGroups (raw : String) : List String :=
  (((entryGroupData raw).1.filter fun s => !(decide (s = []))).map String.mk)

/-- The in-place mutation of one entry inside `fix_csv_group_names`. -/
def toCsvEntry (e : RawEntry) : CsvEntry :=
  { user_login := e.user_login
    first_name := e.first_name
    last_name := e.last_name
    email_address := e.email_address
    telephone_number := e.telephone_number
    mobile_telephone_number := e.mobile_telephone_number
    member_of_groups := entryGroups e.member_of_groups }

/-- `fix_csv_group_names`: mutates every entry's `member_of_groups` into a
set of canonical names and returns the accumulated `group_descriptions`
dict (one `dict.update` per entry, in entry order). -/
def fix_csv_group_names (entries : List RawEntry) :
    List CsvEntry × Dict String :=
  (entries.map toCsvEntry,
   entries.foldl (fun gd e => dictUpdate gd (entryPairs e.member_of_groups)) [])

/-! ### fix_csv_emails and fix_csv_zero_entries -/

/-- `fix_csv_emails`: keep only the first address of a semicolon-separated
email list. -/
def fix_csv_emails (entries : List CsvEntry) : List CsvEntry :=
  entries.map fun e =>
    if ';' ∈ e.email_address.data then
      { e with email_address :=
          String.mk ((splitOnChar ';' e.email_address.data).headD []) }
    else e

/-- One field of `fix_csv_zero_entries`: the sentinel `'0'` (after trimming)
becomes the empty string. -/
def fixZeroField (v : String) : String :=
  if pyStrip v = "0" then "" else v

/-- `fix_csv_zero_entries` over its default fields
(email, telephone, mobile). -/
def fix_csv_zero_entries (entries : List CsvEntry) : List CsvEntry :=
  entries.map fun e =>
    { e with
      email_address := fixZeroField e.email_address
      telephone_number := fixZeroField e.telephone_number
      mobile_telephone_number := fixZeroField e.mobile_telephone_number }

/-! ### find_user_differences -/

/-- The `changes` dict built by `find_user_differences`, plus the
`group-add` slot filled in later by `main`. -/
structure Changes where
  user_mod : Dict (List String)
  user_add : Dict (List String)
  group_add : Dict (List String)
  group_add_member : Dict (List String)
  group_remove_member : Dict (List String)
  deriving DecidableEq, Repr

/-- The initial `changes` dict (all categories empty). -/
def chgEmpty : Changes :=
  { user_mod := [], user_add := [], group_add := []
    group_add_member := [], group_remove_member := [] }

/-- The `user_changes` list computed for a user present in the directory:
one `--flag=value` per tracked attribute whose stripped values differ. -/
def userChanges (new : CsvEntry) (old : IpaRecord) : List String :=
  IPA_CMDLINE_MAP.filterMap fun p =>
    let new_val := pyStrip (csvAttr new p.1)
    let old_val := pyStrip (ipaAttr old p.1)
    if new_val ≠ old_val then some ("--" ++ p.2 ++ "=" ++ new_val) else none

/-- The `user-add` argument list: every tracked attribute, stripped. -/
def userAddArgs (new : CsvEntry) : List String :=
  IPA_CMDLINE_MAP.map fun p => "--" ++ p.2 ++ "=" ++ pyStrip (csvAttr new p.1)

/-- `old.get('member_of_groups', set())` with the empty dict as `none`. -/
def oldGroupsOf (old : Option IpaRecord) : List String :=
  match old with
  | some r => r.member_of_groups
  | none => []

/-- The `if old:` part of the loop body of `find_user_differences`: either
record a `user-mod` entry (when at least one attribute changed) or a
`user-add` entry. -/
def fudUser (c : Changes) (p : CsvEntry × Option IpaRecord) : Changes :=
  match p.2 with
  | some old =>
    let uc := userChanges p.1 old
    if uc ≠ [] then
      { c with user_mod := dictAssign c.user_mod p.1.user_login uc }
    else c
  | none =>
    { c with user_add := dictAssign c.user_add p.1.user_login (userAddArgs p.1) }

/-- `new_groups - old_groups` of the loop body: the groups the user got
added to. -/
def addDiff (p : CsvEntry × Option IpaRecord) : List String :=
  sDiff (sUnion p.1.member_of_groups DEFAULT_GROUPS)
        (sUnion (oldGroupsOf p.2) DEFAULT_GROUPS)

/-- `old_groups - new_groups` of the loop body: the groups the user got
removed from. -/
def remDiff (p : CsvEntry × Option IpaRecord) : List String :=
  sDiff (sUnion (oldGroupsOf p.2) DEFAULT_GROUPS)
        (sUnion p.1.member_of_groups DEFAULT_GROUPS)

/-- The loop `for group in new_groups - old_groups:
changes['group-add-member'][group].append('--users={}'.format(user))`. -/
def gamFold (x : String) (groups : List String) (c : Changes) : Changes :=
  groups.foldl
    (fun d g =>
      { d with group_add_member := dListAppend d.group_add_member g x }) c

/-- The loop `for group in old_groups - new_groups:
changes['group-remove-member'][group].append('--users={}'.format(user))`. -/
def grmFold (x : String) (groups : List String) (c : Changes) : Changes :=
  groups.foldl
    (fun d g =>
      { d with group_remove_member := dListAppend d.group_remove_member g x })
    c

/-- The loop body of `find_user_differences` for one `(new, old)` pair. -/
def fudStep (c : Changes) (p : CsvEntry × Option IpaRecord) : Changes :=
  grmFold ("--users=" ++ p.1.user_login) (remDiff p)
    (gamFold ("--users=" ++ p.1.user_login) (addDiff p) (fudUser c p))

/-- `find_user_differences`: fold the loop body over
`zip(csv_entries, ipa_entries)`. -/
def find_user_differences (csv_entries : List CsvEntry)
    (ipa_entries : List (Option IpaRecord)) : Changes :=
  (csv_entries.zip ipa_entries).foldl fudStep chgEmpty

/-! ### find_group_changes -/

/-- Outcome of the `ipa group-show` subprocess for one group: the group was
shown, the group was not found, or the check itself failed to produce an
answer (e.g. the directory was unavailable). -/
inductive GroupShowResult
  | found | notFound | checkFailed
  deriving DecidableEq, Repr

/-- The process exit status `subprocess.call(['ipa', 'group-show', group])`
returns: 0 when the group exists, 2 when `ipa` reports that the group was
not found, 1 when the command failed to evaluate the query. -/
def exitCode : GroupShowResult → Nat
  | .found => 0
  | .notFound => 2
  | .checkFailed => 1

/-- `find_group_changes`: for every key of `group-add-member`, emit a
`group-add` entry whenever the `ipa group-show` exit status is nonzero,
with the catalog description when one is known. -/
def find_group_changes (user_changes : Changes)
    (group_descriptions : Dict String)
    (groupShow : String → GroupShowResult) : Dict (List String) :=
  (dictKeys user_changes.group_add_member).foldl
    (fun changes group =>
      if exitCode (groupShow group) ≠ 0 then
        dictAssign changes group
          (match dictGet group_descriptions group with
           | some d => ["--desc=" ++ d]
           | none => [])
      else changes) []

/-- The composition performed by `main`:
`changes = find_user_differences(...)` followed by
`changes['group-add'] = find_group_changes(changes, group_descriptions)`. -/
def buildPlan (csv_entries : List CsvEntry)
    (ipa_entries : List (Option IpaRecord))
    (group_descriptions : Dict String)
    (groupShow : String → GroupShowResult) : Changes :=
  let c := find_user_differences csv_entries ipa_entries
  { c with group_add := find_group_changes c group_descriptions groupShow }

/-! ### commit_changes -/

/-- The five command names in the order `commit_changes` iterates them,
paired with the corresponding category dict of a plan. -/
def categoryDicts (c : Changes) : List (String × Dict (List String)) :=
  [("user-add", c.user_add), ("user-mod", c.user_mod),
   ("group-add", c.group_add), ("group-add-member", c.group_add_member),
   ("group-remove-member", c.group_remove_member)]

/-- `commit_changes` embedded as the sequence of
`ipa --no-prompt <command> <primary_key> <args>` invocations it issues,
in issue order. -/
def commit_changes (c : Changes) : List (String × String × List String) :=
  (categoryDicts c).flatMap fun cd => cd.2.map fun e => (cd.1, e.1, e.2)

/-- Position of a command name in the fixed execution order of
`commit_changes`. -/
def catIdx (cmd : String) : Nat :=
  if cmd = "user-add" then 0
  else if cmd = "user-mod" then 1
  else if cmd = "group-add" then 2
  else if cmd = "group-add-member" then 3
  else 4

/-- Directory state of one user after the first run's plan has been fully
applied (claim C3's hypothesis): every tracked attribute carries the
imported trimmed value and the membership set equals the imported groups. -/
def appliedRecord (e : CsvEntry) : IpaRecord :=
  { first_name := pyStrip e.first_name
    last_name := pyStrip e.last_name
    email_address := pyStrip e.email_address
    telephone_number := pyStrip e.telephone_number
    mobile_telephone_number := pyStrip e.mobile_telephone_number
    member_of_groups := e.member_of_groups }

/-! ### Helper lemmas about the dict embedding -/

theorem dictGet_dictAssign {α : Type} (d : Dict α) (a k : String) (v : α) :
    dictGet (dictAssign d a v) k = if a = k then some v else dictGet d k := by
  induction d with
  | nil => simp [dictAssign, dictGet]
  | cons p rest ih =>
    obtain ⟨k', v'⟩ := p
    by_cases h : k' = a
    · subst h
      by_cases h2 : k' = k
      · subst h2
        simp [dictAssign, dictGet]
      · simp [dictAssign, dictGet, h2]
    · by_cases h2 : k' = k
      · subst h2
        have hak : ¬ a = k' := fun e => h e.symm
        simp [dictAssign, dictGet, h, hak]
      · simp [dictAssign, dictGet, h, h2, ih]

theorem lookupList_dListAppend {α : Type} (d : Dict (List α)) (a k : String)
    (x : α) :
    lookupList (dListAppend d a x) k =
      if a = k then lookupList d k ++ [x] else lookupList d k := by
  induction d with
  | nil =>
    by_cases h : a = k <;> simp [dListAppend, lookupList, dictGet, h]
  | cons p rest ih =>
    obtain ⟨k', l⟩ := p
    by_cases h : k' = a
    · subst h
      by_cases h2 : k' = k
      · subst h2
        simp [dListAppend, lookupList, dictGet]
      · simp [dListAppend, lookupList, dictGet, h2]
    · by_cases h2 : k' = k
      · subst h2
        have hak : ¬ a = k' := fun e => h e.symm
        simp [dListAppend, h, lookupList, dictGet, hak]
      · simpa [dListAppend, h, lookupList, dictGet, h2] using ih

theorem dictGet_dListAppend_ne {α : Type} (d : Dict (List α)) (a k : String)
    (x : α) (h : ¬ a = k) :
    dictGet (dListAppend d a x) k = dictGet d k := by
  induction d with
  | nil => simp [dListAppend, dictGet, h]
  | cons p rest ih =>
    obtain ⟨k', l⟩ := p
    by_cases hp : k' = a
    · subst hp
      simp [dListAppend, dictGet, h]
    · by_cases h2 : k' = k
      · subst h2
        simp [dListAppend, hp, dictGet]
      · simp [dListAppend, hp, dictGet, h2, ih]

theorem mem_dictKeys_iff {α : Type} (d : Dict α) (k : String) :
    k ∈ dictKeys d ↔ (dictGet d k).isSome := by
  induction d with
  | nil => simp [dictKeys, dictGet]
  | cons p rest ih =>
    obtain ⟨k', v'⟩ := p
    show k ∈ k' :: dictKeys rest ↔ _
    by_cases h : k' = k
    · subst h
      simp [dictGet]
    · have h2 : ¬ k = k' := fun e => h e.symm
      have hg : dictGet ((k', v') :: rest) k = dictGet rest k := by
        simp [dictGet, h]
      rw [hg, List.mem_cons]
      simp [h2, ih]

/-- The value the last update pair with key `k` carries, if any. -/
def lastValue : List (String × String) → String → Option String
  | [], _ => none
  | p :: ps, k =>
    match lastValue ps k with
    | some v => some v
    | none => if p.1 = k then some p.2 else none

theorem dictGet_dictUpdate (ps : List (String × String)) (d : Dict String)
    (k : String) :
    dictGet (dictUpdate d ps) k =
      match lastValue ps k with
      | some v => some v
      | none => dictGet d k := by
  induction ps generalizing d with
  | nil => rfl
  | cons p ps ih =>
    show dictGet (dictUpdate (dictAssign d p.1 p.2) ps) k = _
    rw [ih]
    cases hl : lastValue ps k with
    | some v => simp [lastValue, hl]
    | none =>
      simp only [lastValue, hl, dictGet_dictAssign]
      by_cases hp : p.1 = k <;> simp [hp]

/-- All `(canonical, original)` description pairs of a batch, in update
order. -/
def catalogPairs (entries : List RawEntry) : List (String × String) :=
  entries.flatMap fun e => entryPairs e.member_of_groups

theorem dictUpdate_append {α : Type} (d : Dict α)
    (a b : List (String × α)) :
    dictUpdate d (a ++ b) = dictUpdate (dictUpdate d a) b := by
  simp [dictUpdate, List.foldl_append]

theorem catalog_eq_update (entries : List RawEntry) (d : Dict String) :
    entries.foldl (fun gd e => dictUpdate gd (entryPairs e.member_of_groups)) d
      = dictUpdate d (catalogPairs entries) := by
  induction entries generalizing d with
  | nil => rfl
  | cons e rest ih =>
    have h1 : catalogPairs (e :: rest)
        = entryPairs e.member_of_groups ++ catalogPairs rest := by
      simp [catalogPairs]
    rw [List.foldl_cons, ih, h1, dictUpdate_append]

/-! ### C4 — which original label the catalog stores for a canonical id -/

/-- C4, amended: the GroupCatalog stores, for every canonical id, the
original segment of the **last** occurrence in batch order (Python
`dict.update` overwrites on key collision), not the first. -/
theorem groupCatalog_last_occurrence_wins (entries : List RawEntry)
    (id : String) :
    dictGet (fix_csv_group_names entries).2 id
      = lastValue (catalogPairs entries) id := by
  show dictGet (entries.foldl _ []) id = _
  rw [catalog_eq_update, dictGet_dictUpdate]
  cases lastValue (catalogPairs entries) id <;> rfl

/-- A batch in which the raw segments `"X Y"` and `"x_y"` both normalize to
the canonical id `"x_y"`. -/
def c4Entries : List RawEntry :=
  [{ user_login := "u1", first_name := "", last_name := "",
     email_address := "", telephone_number := "",
     mobile_telephone_number := "", member_of_groups := "X Y" },
   { user_login := "u2", first_name := "", last_name := "",
     email_address := "", telephone_number := "",
     mobile_telephone_number := "", member_of_groups := "x_y" }]

/-- C4 counterexample: two raw segments (`"X Y"` first, `"x_y"` second)
normalize to the same canonical id `"x_y"`, and the catalog stores the
original segment of the **second** occurrence, not of the first. -/
theorem groupCatalog_first_occurrence_refuted :
    dictGet (fix_csv_group_names c4Entries).2 "x_y" = some "x_y"
      ∧ some "x_y" ≠ some "X Y" := by
  exact ⟨rfl, by decide⟩

/-! ### C1 — behavior of the Group Resolver on a failed existence check -/

/-- A user-changes dict whose `group-add-member` references one group. -/
def c1Changes : Changes :=
  { chgEmpty with group_add_member := [("grp", ["--users=u"])] }

/-- C1 counterexample: when the existence check fails to evaluate
(`ipa group-show` exits with a nonzero status that does not mean
"not found"), `find_group_changes` silently emits a `group-add` entry for
the group — exactly the output it produces when the group genuinely does
not exist — instead of surfacing the failure. -/
theorem groupResolver_checkFailure_refuted :
    find_group_changes c1Changes [] (fun _ => .checkFailed) = [("grp", [])]
      ∧ find_group_changes c1Changes [] (fun _ => .notFound) = [("grp", [])] :=
  ⟨rfl, rfl⟩

/-- C1, amended: the Group Resolver cannot surface an existence-check
failure.  Its output on any existence oracle is identical to its output on
the oracle in which every failed check is replaced by "not found": a failed
check is silently defaulted to "needs creation". -/
theorem groupResolver_checkFailure_defaults_to_create (uc : Changes)
    (gd : Dict String) (gs : String → GroupShowResult) :
    find_group_changes uc gd gs =
      find_group_changes uc gd
        (fun g => if exitCode (gs g) = 0 then .found else .notFound) := by
  unfold find_group_changes
  suffices h :
      (fun (changes : Dict (List String)) (group : String) =>
        if exitCode (gs group) ≠ 0 then
          dictAssign changes group
            (match dictGet gd group with
             | some d => ["--desc=" ++ d]
             | none => [])
        else changes)
      = (fun (changes : Dict (List String)) (group : String) =>
        if exitCode
            (if exitCode (gs group) = 0 then GroupShowResult.found
             else GroupShowResult.notFound) ≠ 0 then
          dictAssign changes group
            (match dictGet gd group with
             | some d => ["--desc=" ++ d]
             | none => [])
        else changes) by
    rw [h]
  funext changes group
  cases hg : gs group <;> simp [hg, exitCode]

/-! ### C2 — commit_changes issues the categories in the fixed order -/

theorem pairwise_of_total {α : Type} {R : α → α → Prop}
    (h : ∀ a b, R a b) (l : List α) : l.Pairwise R := by
  induction l with
  | nil => exact .nil
  | cons x t ih => exact .cons (fun y _ => h x y) ih

/-- C2: along the sequence of commands `commit_changes` issues, the
category index never decreases — every operation of an earlier category is
issued before any operation of a later category
(user-add, user-mod, group-add, group-add-member, group-remove-member). -/
theorem commit_changes_category_order (c : Changes) :
    (commit_changes c).Pairwise (fun a b => catIdx a.1 ≤ catIdx b.1) := by
  have hfst : ∀ (cmd : String) (d : Dict (List String))
      (x : String × String × List String),
      x ∈ d.map (fun e => (cmd, e.1, e.2)) → x.1 = cmd := by
    intro cmd d x hx
    obtain ⟨e, _, rfl⟩ := List.mem_map.mp hx
    rfl
  have hblk : ∀ (cmd : String) (d : Dict (List String)),
      (d.map (fun e => (cmd, e.1, e.2))).Pairwise
        (fun a b => catIdx a.1 ≤ catIdx b.1) := by
    intro cmd d
    rw [List.pairwise_map]
    exact pairwise_of_total (fun a b => le_refl _) d
  have hcross : ∀ (cmd cmd' : String) (d d' : Dict (List String)),
      catIdx cmd ≤ catIdx cmd' →
      ∀ x ∈ d.map (fun e => (cmd, e.1, e.2)),
      ∀ y ∈ d'.map (fun e => (cmd', e.1, e.2)),
        catIdx x.1 ≤ catIdx y.1 := by
    intro cmd cmd' d d' hle x hx y hy
    rw [hfst cmd d x hx, hfst cmd' d' y hy]
    exact hle
  have hc : commit_changes c
      = c.user_add.map (fun e => ("user-add", e.1, e.2))
        ++ (c.user_mod.map (fun e => ("user-mod", e.1, e.2))
        ++ (c.group_add.map (fun e => ("group-add", e.1, e.2))
        ++ (c.group_add_member.map (fun e => ("group-add-member", e.1, e.2))
        ++ c.group_remove_member.map
            (fun e => ("group-remove-member", e.1, e.2))))) := by
    simp [commit_changes, categoryDicts]
  rw [hc]
  refine List.pairwise_append.mpr ⟨hblk _ _, ?_, ?_⟩
  · refine List.pairwise_append.mpr ⟨hblk _ _, ?_, ?_⟩
    · refine List.pairwise_append.mpr ⟨hblk _ _, ?_, ?_⟩
      · refine List.pairwise_append.mpr ⟨hblk _ _, hblk _ _, ?_⟩
        · exact hcross _ _ _ _ (by decide)
      · intro x hx y hy
        rcases List.mem_append.mp hy with hy | hy
        · exact hcross _ _ _ _ (by decide) x hx y hy
        · exact hcross _ _ _ _ (by decide) x hx y hy
    · intro x hx y hy
      rcases List.mem_append.mp hy with hy | hy
      · exact hcross _ _ _ _ (by decide) x hx y hy
      · rcases List.mem_append.mp hy with hy | hy
        · exact hcross _ _ _ _ (by decide) x hx y hy
        · exact hcross _ _ _ _ (by decide) x hx y hy
  · intro x hx y hy
    rcases List.mem_append.mp hy with hy | hy
    · exact hcross _ _ _ _ (by decide) x hx y hy
    · rcases List.mem_append.mp hy with hy | hy
      · exact hcross _ _ _ _ (by decide) x hx y hy
      · rcases List.mem_append.mp hy with hy | hy
        · exact hcross _ _ _ _ (by decide) x hx y hy
        · exact hcross _ _ _ _ (by decide) x hx y hy

/-! ### C10 — pairing is strictly positional; unpaired imports are dropped -/

theorem zip_eq_zip_take {α β : Type} :
    ∀ (l1 : List α) (l2 : List β), l1.zip l2 = (l1.take l2.length).zip l2 := by
  intro l1
  induction l1 with
  | nil => intro l2; cases l2 <;> rfl
  | cons a t ih =>
    intro l2
    cases l2 with
    | nil => rfl
    | cons b t2 => simp [List.zip_cons_cons, ih t2]

/-- C10: `find_user_differences` pairs import and directory records by
position (`zip`), so import records beyond the length of the directory
sequence contribute nothing to any category — in particular, with an empty
directory sequence the whole result is empty, never a `user-add`. -/
theorem unpaired_imports_are_dropped (csv_entries : List CsvEntry)
    (ipa_entries : List (Option IpaRecord)) :
    find_user_differences csv_entries ipa_entries
      = find_user_differences (csv_entries.take ipa_entries.length) ipa_entries
    ∧ find_user_differences csv_entries [] = chgEmpty := by
  constructor
  · unfold find_user_differences
    rw [zip_eq_zip_take csv_entries ipa_entries,
        zip_eq_zip_take (csv_entries.take ipa_entries.length) ipa_entries,
        List.take_take, min_self]
  · unfold find_user_differences
    rw [List.zip_nil_right]
    rfl

/-! ### C6 — the example scenario -/

/-- The import row of the example scenario. -/
def rawC6 : RawEntry :=
  { user_login := "jdoe", first_name := "Jane", last_name := "Doe",
    email_address := "0", telephone_number := "",
    mobile_telephone_number := "", member_of_groups := "Büro/Team" }

/-- The example batch after the loader-side fixups of `main`. -/
def csvC6 : List CsvEntry :=
  fix_csv_zero_entries (fix_csv_emails (fix_csv_group_names [rawC6]).1)

/-- The plan `main` builds for the example scenario: `jdoe` absent from the
directory, and neither referenced group existing. -/
def planC6 : Changes :=
  buildPlan csvC6 [none] (fix_csv_group_names [rawC6]).2 (fun _ => .notFound)

/-- C6 counterexample: the raw segment `"Büro"` normalizes to `"buero"`
(lowercasing yields `"büro"`, then the umlaut transliteration step turns
`ü` into `ue`), so the plan has no `"buro"` key at all; the membership
entry is keyed `"buero"`. -/
theorem exampleScenario_buro_key_refuted :
    dictGet planC6.group_add_member "buro" = none
      ∧ dictGet planC6.group_add_member "buero" = some ["--users=jdoe"] :=
  ⟨rfl, rfl⟩

/-- C6, amended: for the example row (`jdoe` absent from the directory,
email the sentinel `"0"`, raw groups `"Büro/Team"`), the plan adds `jdoe`
with first `Jane`, last `Doe` and an empty email, schedules `jdoe` for
membership in `buero` and `team`, and — both groups being absent — creates
`buero` and `team` with the descriptions `"Büro"` and `"Team"`. -/
theorem exampleScenario_plan :
    dictGet planC6.user_add "jdoe"
        = some ["--first=Jane", "--last=Doe", "--email=", "--phone=",
                "--mobile="]
      ∧ dictGet planC6.group_add_member "buero" = some ["--users=jdoe"]
      ∧ dictGet planC6.group_add_member "team" = some ["--users=jdoe"]
      ∧ dictGet planC6.group_add "buero" = some ["--desc=Büro"]
      ∧ dictGet planC6.group_add "team" = some ["--desc=Team"] :=
  ⟨rfl, rfl, rfl, rfl, rfl⟩

/-! ### Strip idempotence (needed for the idempotence claim) -/

theorem dropWhile_idem {α : Type} (p : α → Bool) (l : List α) :
    (l.dropWhile p).dropWhile p = l.dropWhile p := by
  induction l with
  | nil => rfl
  | cons c t ih =>
    by_cases h : p c
    · simp [List.dropWhile_cons, h, ih]
    · simp [List.dropWhile_cons, h]

theorem length_dropWhile_le' {α : Type} (p : α → Bool) (l : List α) :
    (l.dropWhile p).length ≤ l.length := by
  induction l with
  | nil => simp
  | cons c t ih =>
    by_cases h : p c
    · simp only [List.dropWhile_cons, h, if_true]
      exact le_trans ih (Nat.le_succ _)
    · simp [List.dropWhile_cons, h]

theorem dropWhile_fixpoint_head {α : Type} (p : α → Bool) (a : α)
    (l : List α) (h : (a :: l).dropWhile p = a :: l) : p a = false := by
  by_cases hp : p a
  · exfalso
    rw [List.dropWhile_cons, if_pos hp] at h
    have hle := length_dropWhile_le' p l
    rw [h] at hle
    simp at hle
  · simpa using hp

theorem rdropWhileP_prefix_decomp (p : Char → Bool) (l : List Char) :
    rdropWhileP p l ++ (l.reverse.takeWhile p).reverse = l := by
  unfold rdropWhileP
  rw [← List.reverse_append, List.takeWhile_append_dropWhile, List.reverse_reverse]

theorem rdropWhileP_idem (p : Char → Bool) (l : List Char) :
    rdropWhileP p (rdropWhileP p l) = rdropWhileP p l := by
  unfold rdropWhileP
  rw [List.reverse_reverse, dropWhile_idem]

theorem dropWhile_rdropWhileP (p : Char → Bool) (l : List Char)
    (h : l.dropWhile p = l) :
    (rdropWhileP p l).dropWhile p = rdropWhileP p l := by
  cases hr : rdropWhileP p l with
  | nil => rfl
  | cons a t =>
    have hd := rdropWhileP_prefix_decomp p l
    rw [hr] at hd
    rw [← hd] at h
    have hpa : p a = false := dropWhile_fixpoint_head p a _ h
    simp [List.dropWhile_cons, hpa]

theorem stripBy_idem (p : Char → Bool) (l : List Char) :
    stripBy p (stripBy p l) = stripBy p l := by
  unfold stripBy
  have h1 : (l.dropWhile p).dropWhile p = l.dropWhile p := dropWhile_idem p l
  have h2 : (rdropWhileP p (l.dropWhile p)).dropWhile p
      = rdropWhileP p (l.dropWhile p) := dropWhile_rdropWhileP p _ h1
  rw [h2, rdropWhileP_idem]

theorem pyStrip_idem (s : String) : pyStrip (pyStrip s) = pyStrip s := by
  unfold pyStrip pyStripList
  exact congrArg String.mk (stripBy_idem isPySpace s.data)

/-! ### Lemmas about the set embedding -/

theorem mem_sUnion (a b : List String) (x : String) :
    x ∈ sUnion a b ↔ x ∈ a ∨ x ∈ b := by
  simp [sUnion, List.mem_dedup]

theorem mem_sDiff (a b : List String) (x : String) :
    x ∈ sDiff a b ↔ x ∈ a ∧ x ∉ b := by
  simp [sDiff, List.mem_filter, List.mem_dedup]

theorem nodup_sDiff (a b : List String) : (sDiff a b).Nodup :=
  (List.nodup_dedup a).filter _

theorem sDiff_self (a : List String) : sDiff a a = [] := by
  apply List.filter_eq_nil_iff.mpr
  intro x hx
  simp [List.mem_dedup.mp hx]

/-! ### Generic list helpers -/

theorem filterMap_ite_eq_filter_map {α β : Type} (p : α → Prop)
    [DecidablePred p] (f : α → β) (l : List α) :
    (l.filterMap fun a => if p a then some (f a) else none)
      = (l.filter fun a => decide (p a)).map f := by
  induction l with
  | nil => rfl
  | cons a t ih =>
    by_cases h : p a <;> simp [List.filterMap_cons, List.filter_cons, h, ih]

theorem zip_fst_sublist {α β : Type} :
    ∀ (l1 : List α) (l2 : List β), ((l1.zip l2).map Prod.fst).Sublist l1 := by
  intro l1
  induction l1 with
  | nil => intro l2; simp
  | cons a t ih =>
    intro l2
    cases l2 with
    | nil => simp
    | cons b t2 =>
      simp only [List.zip_cons_cons, List.map_cons]
      exact (ih t2).cons₂ a

/-- Two pairs of `zip csv ipa` carrying the same login are the same pair,
when logins are unique across the batch. -/
theorem zip_pair_unique :
    ∀ (csv : List CsvEntry) (ipa : List (Option IpaRecord))
      (a a' : CsvEntry) (b b' : Option IpaRecord),
      (csv.map (fun e => e.user_login)).Nodup →
      (a, b) ∈ csv.zip ipa → (a', b') ∈ csv.zip ipa →
      a.user_login = a'.user_login → a = a' ∧ b = b' := by
  intro csv
  induction csv with
  | nil => intro ipa a a' b b' _ h; simp at h
  | cons c cs ih =>
    intro ipa a a' b b' hnd h h' hlog
    cases ipa with
    | nil => simp at h
    | cons i is =>
      rw [List.map_cons, List.nodup_cons] at hnd
      rw [List.zip_cons_cons, List.mem_cons] at h h'
      rcases h with h | h
      · rcases h' with h' | h'
        · rw [Prod.mk.injEq] at h h'
          exact ⟨h.1.trans h'.1.symm, (h.2).trans h'.2.symm⟩
        · exfalso
          rw [Prod.mk.injEq] at h
          have ha' : a' ∈ cs := (List.of_mem_zip h').1
          have hmem : a'.user_login ∈ cs.map (fun e => e.user_login) :=
            List.mem_map.mpr ⟨a', ha', rfl⟩
          have hc : c.user_login ∈ cs.map (fun e => e.user_login) := by
            rw [← h.1, hlog]; exact hmem
          exact hnd.1 hc
      · rcases h' with h' | h'
        · exfalso
          rw [Prod.mk.injEq] at h'
          have ha : a ∈ cs := (List.of_mem_zip h).1
          have hmem : a.user_login ∈ cs.map (fun e => e.user_login) :=
            List.mem_map.mpr ⟨a, ha, rfl⟩
          have hc : c.user_login ∈ cs.map (fun e => e.user_login) := by
            rw [← h'.1, ← hlog]; exact hmem
          exact hnd.1 hc
        · exact ih is a a' b b' hnd.2 h h' hlog

theorem flag_inj (a b : String) (h : "--users=" ++ a = "--users=" ++ b) :
    a = b := by
  have hd : ("--users=" ++ a).data = ("--users=" ++ b).data := by rw [h]
  rw [String.data_append, String.data_append] at hd
  have hab := List.append_cancel_left hd
  cases a; cases b
  exact congrArg String.mk hab

/-! ### Per-pair provenance of the four change categories -/

/-- The `user-add` entry one pair contributes, if any. -/
def addEntry (p : CsvEntry × Option IpaRecord) : Option (List String) :=
  match p.2 with
  | none => some (userAddArgs p.1)
  | some _ => none

/-- The `user-mod` entry one pair contributes, if any. -/
def modEntry (p : CsvEntry × Option IpaRecord) : Option (List String) :=
  match p.2 with
  | none => none
  | some old =>
    if userChanges p.1 old = [] then none else some (userChanges p.1 old)

theorem gamFold_user_mod (x : String) (groups : List String) (c : Changes) :
    (gamFold x groups c).user_mod = c.user_mod := by
  induction groups generalizing c with
  | nil => rfl
  | cons g gs ih => exact ih _

theorem gamFold_user_add (x : String) (groups : List String) (c : Changes) :
    (gamFold x groups c).user_add = c.user_add := by
  induction groups generalizing c with
  | nil => rfl
  | cons g gs ih => exact ih _

theorem gamFold_group_add (x : String) (groups : List String) (c : Changes) :
    (gamFold x groups c).group_add = c.group_add := by
  induction groups generalizing c with
  | nil => rfl
  | cons g gs ih => exact ih _

theorem gamFold_grm (x : String) (groups : List String) (c : Changes) :
    (gamFold x groups c).group_remove_member = c.group_remove_member := by
  induction groups generalizing c with
  | nil => rfl
  | cons g gs ih => exact ih _

theorem grmFold_user_mod (x : String) (groups : List String) (c : Changes) :
    (grmFold x groups c).user_mod = c.user_mod := by
  induction groups generalizing c with
  | nil => rfl
  | cons g gs ih => exact ih _

theorem grmFold_user_add (x : String) (groups : List String) (c : Changes) :
    (grmFold x groups c).user_add = c.user_add := by
  induction groups generalizing c with
  | nil => rfl
  | cons g gs ih => exact ih _

theorem grmFold_group_add (x : String) (groups : List String) (c : Changes) :
    (grmFold x groups c).group_add = c.group_add := by
  induction groups generalizing c with
  | nil => rfl
  | cons g gs ih => exact ih _

theorem grmFold_gam (x : String) (groups : List String) (c : Changes) :
    (grmFold x groups c).group_add_member = c.group_add_member := by
  induction groups generalizing c with
  | nil => rfl
  | cons g gs ih => exact ih _

theorem gamFold_lookup (x : String) (groups : List String)
    (hnd : groups.Nodup) (c : Changes) (g : String) :
    lookupList (gamFold x groups c).group_add_member g
      = lookupList c.group_add_member g ++ (if g ∈ groups then [x] else []) := by
  induction groups generalizing c with
  | nil => simp [gamFold]
  | cons a gs ih =>
    rw [List.nodup_cons] at hnd
    have h1 : gamFold x (a :: gs) c
        = gamFold x gs
            { c with group_add_member := dListAppend c.group_add_member a x } :=
      rfl
    rw [h1, ih hnd.2]
    show lookupList (dListAppend c.group_add_member a x) g ++ _ = _
    rw [lookupList_dListAppend]
    by_cases hg : a = g
    · subst hg
      rw [if_pos rfl, if_neg hnd.1, if_pos (List.mem_cons_self a gs)]
      simp
    · rw [if_neg hg]
      have h2 : ¬ g = a := fun e => hg e.symm
      simp [List.mem_cons, h2]

theorem gamFold_get_of_not_mem (x : String) (groups : List String)
    (c : Changes) (g : String) (h : g ∉ groups) :
    dictGet (gamFold x groups c).group_add_member g
      = dictGet c.group_add_member g := by
  induction groups generalizing c with
  | nil => rfl
  | cons a gs ih =>
    rw [List.mem_cons, not_or] at h
    have h1 : gamFold x (a :: gs) c
        = gamFold x gs
            { c with group_add_member := dListAppend c.group_add_member a x } :=
      rfl
    rw [h1, ih _ h.2]
    exact dictGet_dListAppend_ne _ _ _ _ (fun e => h.1 e.symm)

theorem grmFold_lookup (x : String) (groups : List String)
    (hnd : groups.Nodup) (c : Changes) (g : String) :
    lookupList (grmFold x groups c).group_remove_member g
      = lookupList c.group_remove_member g
        ++ (if g ∈ groups then [x] else []) := by
  induction groups generalizing c with
  | nil => simp [grmFold]
  | cons a gs ih =>
    rw [List.nodup_cons] at hnd
    have h1 : grmFold x (a :: gs) c
        = grmFold x gs
            { c with group_remove_member :=
                dListAppend c.group_remove_member a x } := rfl
    rw [h1, ih hnd.2]
    show lookupList (dListAppend c.group_remove_member a x) g ++ _ = _
    rw [lookupList_dListAppend]
    by_cases hg : a = g
    · subst hg
      rw [if_pos rfl, if_neg hnd.1, if_pos (List.mem_cons_self a gs)]
      simp
    · rw [if_neg hg]
      have h2 : ¬ g = a := fun e => hg e.symm
      simp [List.mem_cons, h2]

theorem grmFold_get_of_not_mem (x : String) (groups : List String)
    (c : Changes) (g : String) (h : g ∉ groups) :
    dictGet (grmFold x groups c).group_remove_member g
      = dictGet c.group_remove_member g := by
  induction groups generalizing c with
  | nil => rfl
  | cons a gs ih =>
    rw [List.mem_cons, not_or] at h
    have h1 : grmFold x (a :: gs) c
        = grmFold x gs
            { c with group_remove_member :=
                dListAppend c.group_remove_member a x } := rfl
    rw [h1, ih _ h.2]
    exact dictGet_dListAppend_ne _ _ _ _ (fun e => h.1 e.symm)

theorem fudUser_user_add (c : Changes) (p : CsvEntry × Option IpaRecord)
    (u : String) :
    dictGet (fudUser c p).user_add u
      = if p.1.user_login = u then
          (match addEntry p with
           | some v => some v
           | none => dictGet c.user_add u)
        else dictGet c.user_add u := by
  obtain ⟨e, o⟩ := p
  cases o with
  | none =>
    show dictGet (dictAssign c.user_add e.user_login (userAddArgs e)) u = _
    rw [dictGet_dictAssign]
    by_cases h : e.user_login = u <;> simp [h, addEntry]
  | some old =>
    by_cases huc : userChanges e old = [] <;> simp [fudUser, huc, addEntry]

theorem fudUser_user_mod (c : Changes) (p : CsvEntry × Option IpaRecord)
    (u : String) :
    dictGet (fudUser c p).user_mod u
      = if p.1.user_login = u then
          (match modEntry p with
           | some v => some v
           | none => dictGet c.user_mod u)
        else dictGet c.user_mod u := by
  obtain ⟨e, o⟩ := p
  cases o with
  | none =>
    show dictGet c.user_mod u = _
    by_cases h : e.user_login = u <;> simp [h, modEntry]
  | some old =>
    by_cases huc : userChanges e old = []
    · show dictGet (fudUser c (e, some old)).user_mod u = _
      simp only [fudUser, huc, ne_eq, not_true_eq_false, if_false,
        modEntry, if_pos huc]
      by_cases h : e.user_login = u <;> simp [h]
    · show dictGet (fudUser c (e, some old)).user_mod u = _
      simp only [fudUser, huc, ne_eq, not_false_eq_true, if_true,
        modEntry, if_neg huc]
      show dictGet (dictAssign c.user_mod e.user_login (userChanges e old)) u
          = _
      rw [dictGet_dictAssign]
      by_cases h : e.user_login = u <;> simp [h]

theorem fudUser_gam (c : Changes) (p : CsvEntry × Option IpaRecord) :
    (fudUser c p).group_add_member = c.group_add_member := by
  obtain ⟨e, o⟩ := p
  cases o with
  | none => rfl
  | some old =>
    by_cases huc : userChanges e old = [] <;> simp [fudUser, huc]

theorem fudUser_grm (c : Changes) (p : CsvEntry × Option IpaRecord) :
    (fudUser c p).group_remove_member = c.group_remove_member := by
  obtain ⟨e, o⟩ := p
  cases o with
  | none => rfl
  | some old =>
    by_cases huc : userChanges e old = [] <;> simp [fudUser, huc]

theorem fudUser_group_add (c : Changes) (p : CsvEntry × Option IpaRecord) :
    (fudUser c p).group_add = c.group_add := by
  obtain ⟨e, o⟩ := p
  cases o with
  | none => rfl
  | some old =>
    by_cases huc : userChanges e old = [] <;> simp [fudUser, huc]

theorem fudStep_user_add (c : Changes) (p : CsvEntry × Option IpaRecord)
    (u : String) :
    dictGet (fudStep c p).user_add u
      = if p.1.user_login = u then
          (match addEntry p with
           | some v => some v
           | none => dictGet c.user_add u)
        else dictGet c.user_add u := by
  unfold fudStep
  rw [grmFold_user_add, gamFold_user_add, fudUser_user_add]

theorem fudStep_user_mod (c : Changes) (p : CsvEntry × Option IpaRecord)
    (u : String) :
    dictGet (fudStep c p).user_mod u
      = if p.1.user_login = u then
          (match modEntry p with
           | some v => some v
           | none => dictGet c.user_mod u)
        else dictGet c.user_mod u := by
  unfold fudStep
  rw [grmFold_user_mod, gamFold_user_mod, fudUser_user_mod]

theorem fudStep_group_add (c : Changes) (p : CsvEntry × Option IpaRecord) :
    (fudStep c p).group_add = c.group_add := by
  unfold fudStep
  rw [grmFold_group_add, gamFold_group_add, fudUser_group_add]

theorem nodup_addDiff (p : CsvEntry × Option IpaRecord) :
    (addDiff p).Nodup := nodup_sDiff _ _

theorem nodup_remDiff (p : CsvEntry × Option IpaRecord) :
    (remDiff p).Nodup := nodup_sDiff _ _

theorem fudStep_gam_lookup (c : Changes) (p : CsvEntry × Option IpaRecord)
    (g : String) :
    lookupList (fudStep c p).group_add_member g
      = lookupList c.group_add_member g
        ++ (if g ∈ addDiff p then ["--users=" ++ p.1.user_login] else []) := by
  unfold fudStep
  rw [grmFold_gam, gamFold_lookup _ _ (nodup_addDiff p), fudUser_gam]

theorem fudStep_gam_get_of_not_mem (c : Changes)
    (p : CsvEntry × Option IpaRecord) (g : String) (h : g ∉ addDiff p) :
    dictGet (fudStep c p).group_add_member g
      = dictGet c.group_add_member g := by
  unfold fudStep
  rw [grmFold_gam, gamFold_get_of_not_mem _ _ _ _ h, fudUser_gam]

theorem fudStep_grm_lookup (c : Changes) (p : CsvEntry × Option IpaRecord)
    (g : String) :
    lookupList (fudStep c p).group_remove_member g
      = lookupList c.group_remove_member g
        ++ (if g ∈ remDiff p then ["--users=" ++ p.1.user_login] else []) := by
  unfold fudStep
  rw [grmFold_lookup _ _ (nodup_remDiff p), gamFold_grm, fudUser_grm]

theorem fudStep_grm_get_of_not_mem (c : Changes)
    (p : CsvEntry × Option IpaRecord) (g : String) (h : g ∉ remDiff p) :
    dictGet (fudStep c p).group_remove_member g
      = dictGet c.group_remove_member g := by
  unfold fudStep
  rw [grmFold_get_of_not_mem _ _ _ _ h, gamFold_grm, fudUser_grm]

/-! ### Fold-level provenance of the four change categories -/

theorem fudFold_user_frame :
    ∀ (l : List (CsvEntry × Option IpaRecord)) (c : Changes) (u : String),
      (∀ p ∈ l, p.1.user_login ≠ u) →
      dictGet (l.foldl fudStep c).user_add u = dictGet c.user_add u
      ∧ dictGet (l.foldl fudStep c).user_mod u = dictGet c.user_mod u := by
  intro l
  induction l with
  | nil => intro c u _; exact ⟨rfl, rfl⟩
  | cons q t ih =>
    intro c u h
    have hq : q.1.user_login ≠ u := h q (List.mem_cons_self q t)
    have ht : ∀ p ∈ t, p.1.user_login ≠ u :=
      fun p hp => h p (List.mem_cons_of_mem q hp)
    have hrec := ih (fudStep c q) u ht
    refine ⟨hrec.1.trans ?_, hrec.2.trans ?_⟩
    · rw [fudStep_user_add, if_neg hq]
    · rw [fudStep_user_mod, if_neg hq]

theorem fudFold_user_char :
    ∀ (l : List (CsvEntry × Option IpaRecord)) (c : Changes)
      (p : CsvEntry × Option IpaRecord),
      (l.map fun q => q.1.user_login).Nodup → p ∈ l →
      dictGet (l.foldl fudStep c).user_add p.1.user_login
          = (match addEntry p with
             | some v => some v
             | none => dictGet c.user_add p.1.user_login)
      ∧ dictGet (l.foldl fudStep c).user_mod p.1.user_login
          = (match modEntry p with
             | some v => some v
             | none => dictGet c.user_mod p.1.user_login) := by
  intro l
  induction l with
  | nil => intro c p _ hp; simp at hp
  | cons q t ih =>
    intro c p hnd hp
    rw [List.map_cons, List.nodup_cons] at hnd
    rcases List.mem_cons.mp hp with hp | hp
    · subst hp
      have ht : ∀ r ∈ t, r.1.user_login ≠ p.1.user_login := by
        intro r hr he
        exact hnd.1 (List.mem_map.mpr ⟨r, hr, he⟩)
      have hframe := fudFold_user_frame t (fudStep c p) p.1.user_login ht
      have h1 := fudStep_user_add c p p.1.user_login
      have h2 := fudStep_user_mod c p p.1.user_login
      rw [if_pos rfl] at h1 h2
      exact ⟨hframe.1.trans h1, hframe.2.trans h2⟩
    · have hne : q.1.user_login ≠ p.1.user_login := by
        intro he
        exact hnd.1 (List.mem_map.mpr ⟨p, hp, he.symm⟩)
      have hrec := ih (fudStep c q) p hnd.2 hp
      have h1 := fudStep_user_add c q p.1.user_login
      have h2 := fudStep_user_mod c q p.1.user_login
      rw [if_neg hne] at h1 h2
      constructor
      · rw [List.foldl_cons, hrec.1]
        cases addEntry p <;> simp [h1]
      · rw [List.foldl_cons, hrec.2]
        cases modEntry p <;> simp [h2]

theorem fudFold_gam_lookup :
    ∀ (l : List (CsvEntry × Option IpaRecord)) (c : Changes) (g : String),
      lookupList (l.foldl fudStep c).group_add_member g
        = lookupList c.group_add_member g
          ++ (l.filter fun p => decide (g ∈ addDiff p)).map
              (fun p => "--users=" ++ p.1.user_login) := by
  intro l
  induction l with
  | nil => intro c g; simp
  | cons q t ih =>
    intro c g
    rw [List.foldl_cons, ih (fudStep c q) g, fudStep_gam_lookup]
    by_cases hq : g ∈ addDiff q <;>
      simp [List.filter_cons, hq, List.append_assoc]

theorem fudFold_grm_lookup :
    ∀ (l : List (CsvEntry × Option IpaRecord)) (c : Changes) (g : String),
      lookupList (l.foldl fudStep c).group_remove_member g
        = lookupList c.group_remove_member g
          ++ (l.filter fun p => decide (g ∈ remDiff p)).map
              (fun p => "--users=" ++ p.1.user_login) := by
  intro l
  induction l with
  | nil => intro c g; simp
  | cons q t ih =>
    intro c g
    rw [List.foldl_cons, ih (fudStep c q) g, fudStep_grm_lookup]
    by_cases hq : g ∈ remDiff q <;>
      simp [List.filter_cons, hq, List.append_assoc]

theorem fudFold_gam_get_none :
    ∀ (l : List (CsvEntry × Option IpaRecord)) (c : Changes) (g : String),
      (∀ p ∈ l, g ∉ addDiff p) →
      dictGet (l.foldl fudStep c).group_add_member g
        = dictGet c.group_add_member g := by
  intro l
  induction l with
  | nil => intro c g _; rfl
  | cons q t ih =>
    intro c g h
    rw [List.foldl_cons,
        ih (fudStep c q) g (fun p hp => h p (List.mem_cons_of_mem q hp)),
        fudStep_gam_get_of_not_mem c q g (h q (List.mem_cons_self q t))]

theorem fudFold_grm_get_none :
    ∀ (l : List (CsvEntry × Option IpaRecord)) (c : Changes) (g : String),
      (∀ p ∈ l, g ∉ remDiff p) →
      dictGet (l.foldl fudStep c).group_remove_member g
        = dictGet c.group_remove_member g := by
  intro l
  induction l with
  | nil => intro c g _; rfl
  | cons q t ih =>
    intro c g h
    rw [List.foldl_cons,
        ih (fudStep c q) g (fun p hp => h p (List.mem_cons_of_mem q hp)),
        fudStep_grm_get_of_not_mem c q g (h q (List.mem_cons_self q t))]

theorem fudFold_group_add :
    ∀ (l : List (CsvEntry × Option IpaRecord)) (c : Changes),
      (l.foldl fudStep c).group_add = c.group_add := by
  intro l
  induction l with
  | nil => intro c; rfl
  | cons q t ih =>
    intro c
    rw [List.foldl_cons, ih (fudStep c q), fudStep_group_add]

/-- The logins of the zipped pairs are unique whenever the batch logins
are. -/
theorem zip_logins_nodup (csv : List CsvEntry)
    (ipa : List (Option IpaRecord))
    (hnd : (csv.map fun e => e.user_login).Nodup) :
    ((csv.zip ipa).map fun q => q.1.user_login).Nodup := by
  have h2 := (zip_fst_sublist csv ipa).map (fun e : CsvEntry => e.user_login)
  simp only [List.map_map] at h2
  exact hnd.sublist h2

/-! ### C3 — a second run over the applied directory state is a no-op -/

theorem zip_map_self {α β : Type} (f : α → β) (l : List α) :
    l.zip (l.map f) = l.map fun x => (x, f x) := by
  induction l with
  | nil => rfl
  | cons a t ih => simp [List.zip_cons_cons, ih]

theorem userChanges_applied (e : CsvEntry) :
    userChanges e (appliedRecord e) = [] := by
  simp [userChanges, IPA_CMDLINE_MAP, List.filterMap_cons, csvAttr, ipaAttr,
    appliedRecord, pyStrip_idem]

theorem fudStep_applied (c : Changes) (e : CsvEntry) :
    fudStep c (e, some (appliedRecord e)) = c := by
  have ha : addDiff (e, some (appliedRecord e)) = [] := sDiff_self _
  have hr : remDiff (e, some (appliedRecord e)) = [] := sDiff_self _
  unfold fudStep
  rw [ha, hr]
  show fudUser c (e, some (appliedRecord e)) = c
  simp [fudUser, userChanges_applied]

/-- C3: running the engine again with the same import batch against the
directory state produced by fully applying the first run's plan (every
tracked attribute holds the imported trimmed value, memberships equal the
imported groups) yields the empty ChangePlan: all five categories are
empty. -/
theorem second_run_is_empty (csv_entries : List CsvEntry)
    (group_descriptions : Dict String)
    (groupShow : String → GroupShowResult) :
    buildPlan csv_entries (csv_entries.map fun e => some (appliedRecord e))
      group_descriptions groupShow = chgEmpty := by
  have hfud : find_user_differences csv_entries
      (csv_entries.map fun e => some (appliedRecord e)) = chgEmpty := by
    unfold find_user_differences
    rw [zip_map_self, List.foldl_map]
    have hall : ∀ (l : List CsvEntry) (c : Changes),
        l.foldl (fun c e => fudStep c (e, some (appliedRecord e))) c = c := by
      intro l
      induction l with
      | nil => intro c; rfl
      | cons a t ih =>
        intro c
        rw [List.foldl_cons, fudStep_applied, ih]
    exact hall csv_entries chgEmpty
  unfold buildPlan
  rw [hfud]
  rfl

/-! ### C7 — userMod lists exactly the attributes whose trimmed values
differ -/

/-- C7: for a login present in both sequences (paired with a directory
record), the `user-mod` entry exists exactly when at least one tracked
attribute changed — it carries one assignment per tracked attribute whose
trimmed import and directory values differ, and nothing else; with zero
changed attributes no entry is emitted for that login. -/
theorem userMod_minimal (csv_entries : List CsvEntry)
    (ipa_entries : List (Option IpaRecord)) (new : CsvEntry)
    (old : IpaRecord)
    (hnd : (csv_entries.map fun e => e.user_login).Nodup)
    (hm : (new, some old) ∈ csv_entries.zip ipa_entries) :
    dictGet (find_user_differences csv_entries ipa_entries).user_mod
        new.user_login
      = (if userChanges new old = [] then none
         else some (userChanges new old))
    ∧ userChanges new old
      = (IPA_CMDLINE_MAP.filter fun q =>
          decide (pyStrip (csvAttr new q.1) ≠ pyStrip (ipaAttr old q.1))).map
          (fun q => "--" ++ q.2 ++ "=" ++ pyStrip (csvAttr new q.1)) := by
  constructor
  · have hchar := (fudFold_user_char (csv_entries.zip ipa_entries) chgEmpty
      (new, some old) (zip_logins_nodup csv_entries ipa_entries hnd) hm).2
    show dictGet ((csv_entries.zip ipa_entries).foldl fudStep
        chgEmpty).user_mod new.user_login = _
    rw [hchar]
    by_cases huc : userChanges new old = [] <;>
      simp [modEntry, huc, chgEmpty, dictGet]
  · unfold userChanges
    exact filterMap_ite_eq_filter_map _ _ _

/-! ### C9 — structural invariants of the assembled plan -/

theorem mem_dictKeys_dictAssign {α : Type} (d : Dict α) (k : String) (v : α)
    (u : String) :
    u ∈ dictKeys (dictAssign d k v) ↔ u = k ∨ u ∈ dictKeys d := by
  rw [mem_dictKeys_iff, mem_dictKeys_iff, dictGet_dictAssign]
  by_cases h : k = u
  · subst h
    simp
  · have h2 : ¬ u = k := fun e => h e.symm
    simp [h, h2]

theorem find_group_changes_keys_subset (uc : Changes)
    (group_descriptions : Dict String)
    (groupShow : String → GroupShowResult) (g : String)
    (h : g ∈ dictKeys (find_group_changes uc group_descriptions groupShow)) :
    g ∈ dictKeys uc.group_add_member := by
  have aux : ∀ (ks : List String) (acc : Dict (List String)),
      g ∈ dictKeys (ks.foldl
        (fun changes group =>
          if exitCode (groupShow group) ≠ 0 then
            dictAssign changes group
              (match dictGet group_descriptions group with
               | some d => ["--desc=" ++ d]
               | none => [])
          else changes) acc) →
      g ∈ dictKeys acc ∨ g ∈ ks := by
    intro ks
    induction ks with
    | nil => intro acc hacc; exact Or.inl hacc
    | cons a t ih =>
      intro acc hacc
      rw [List.foldl_cons] at hacc
      rcases ih _ hacc with hin | hin
      · by_cases hc : exitCode (groupShow a) ≠ 0
        · rw [if_pos hc] at hin
          rcases (mem_dictKeys_dictAssign _ _ _ _).mp hin with he | he
          · exact Or.inr (he ▸ List.mem_cons_self a t)
          · exact Or.inl he
        · rw [if_neg hc] at hin
          exact Or.inl hin
      · exact Or.inr (List.mem_cons_of_mem a hin)
  have h2 := aux (dictKeys uc.group_add_member) [] h
  rcases h2 with h2 | h2
  · simp [dictKeys] at h2
  · exact h2

/-- C9: in every plan the engine assembles, a login is a key of at most one
of `user-add` and `user-mod`, and every `group-add` key is also a
`group-add-member` key (groups are scheduled for creation only when some
membership addition references them). -/
theorem plan_invariants (csv_entries : List CsvEntry)
    (ipa_entries : List (Option IpaRecord))
    (group_descriptions : Dict String)
    (groupShow : String → GroupShowResult)
    (hnd : (csv_entries.map fun e => e.user_login).Nodup) :
    (∀ u, ¬ ((dictGet (buildPlan csv_entries ipa_entries group_descriptions
                groupShow).user_add u).isSome
          ∧ (dictGet (buildPlan csv_entries ipa_entries group_descriptions
                groupShow).user_mod u).isSome))
    ∧ (∀ g, g ∈ dictKeys (buildPlan csv_entries ipa_entries
            group_descriptions groupShow).group_add →
          g ∈ dictKeys (buildPlan csv_entries ipa_entries group_descriptions
            groupShow).group_add_member) := by
  constructor
  · intro u hu
    obtain ⟨ha, hb⟩ := hu
    have hua : (buildPlan csv_entries ipa_entries group_descriptions
        groupShow).user_add
        = ((csv_entries.zip ipa_entries).foldl fudStep chgEmpty).user_add :=
      rfl
    have hum : (buildPlan csv_entries ipa_entries group_descriptions
        groupShow).user_mod
        = ((csv_entries.zip ipa_entries).foldl fudStep chgEmpty).user_mod :=
      rfl
    rw [hua] at ha
    rw [hum] at hb
    by_cases hex : ∃ p ∈ csv_entries.zip ipa_entries, p.1.user_login = u
    · obtain ⟨p, hp, hlog⟩ := hex
      have hchar := fudFold_user_char (csv_entries.zip ipa_entries) chgEmpty
        p (zip_logins_nodup csv_entries ipa_entries hnd) hp
      rw [hlog] at hchar
      obtain ⟨e, po⟩ := p
      cases po with
      | none =>
        have : dictGet ((csv_entries.zip ipa_entries).foldl fudStep
            chgEmpty).user_mod u = none := by
          rw [hchar.2]
          rfl
        rw [this] at hb
        simp at hb
      | some old =>
        have : dictGet ((csv_entries.zip ipa_entries).foldl fudStep
            chgEmpty).user_add u = none := by
          rw [hchar.1]
          rfl
        rw [this] at ha
        simp at ha
    · push_neg at hex
      have hframe := fudFold_user_frame (csv_entries.zip ipa_entries)
        chgEmpty u hex
      rw [hframe.1] at ha
      simp [chgEmpty, dictGet] at ha
  · intro g hg
    exact find_group_changes_keys_subset _ _ _ _ hg

/-! ### C8 — membership deltas are the set differences of the
default-augmented group sets -/

/-- C8: for every paired user, `--users=<login>` is recorded under a group
in `group-add-member` exactly when the group lies in
`(importGroups ∪ defaults) − (directoryGroups ∪ defaults)`, and under
`group-remove-member` exactly when it lies in the opposite difference;
consequently a default group is never a key of either delta. -/
theorem membership_deltas (csv_entries : List CsvEntry)
    (ipa_entries : List (Option IpaRecord)) (new : CsvEntry)
    (old : Option IpaRecord) (g : String)
    (hnd : (csv_entries.map fun e => e.user_login).Nodup)
    (hm : (new, old) ∈ csv_entries.zip ipa_entries) :
    (("--users=" ++ new.user_login)
        ∈ lookupList (find_user_differences csv_entries
            ipa_entries).group_add_member g
      ↔ g ∈ sDiff (sUnion new.member_of_groups DEFAULT_GROUPS)
              (sUnion (oldGroupsOf old) DEFAULT_GROUPS))
    ∧ (("--users=" ++ new.user_login)
        ∈ lookupList (find_user_differences csv_entries
            ipa_entries).group_remove_member g
      ↔ g ∈ sDiff (sUnion (oldGroupsOf old) DEFAULT_GROUPS)
              (sUnion new.member_of_groups DEFAULT_GROUPS))
    ∧ (g ∈ DEFAULT_GROUPS →
        dictGet (find_user_differences csv_entries
          ipa_entries).group_add_member g = none
        ∧ dictGet (find_user_differences csv_entries
            ipa_entries).group_remove_member g = none) := by
  have hgam : lookupList (find_user_differences csv_entries
      ipa_entries).group_add_member g
      = ((csv_entries.zip ipa_entries).filter
            fun p => decide (g ∈ addDiff p)).map
          (fun p => "--users=" ++ p.1.user_login) := by
    have h := fudFold_gam_lookup (csv_entries.zip ipa_entries) chgEmpty g
    simpa [chgEmpty, lookupList, dictGet] using h
  have hgrm : lookupList (find_user_differences csv_entries
      ipa_entries).group_remove_member g
      = ((csv_entries.zip ipa_entries).filter
            fun p => decide (g ∈ remDiff p)).map
          (fun p => "--users=" ++ p.1.user_login) := by
    have h := fudFold_grm_lookup (csv_entries.zip ipa_entries) chgEmpty g
    simpa [chgEmpty, lookupList, dictGet] using h
  refine ⟨?_, ?_, ?_⟩
  · rw [hgam]
    constructor
    · intro hmem
      obtain ⟨p, hpf, hflag⟩ := List.mem_map.mp hmem
      obtain ⟨hpz, hdec⟩ := List.mem_filter.mp hpf
      have hlog : p.1.user_login = new.user_login := flag_inj _ _ hflag
      have hpe : p.1 = new ∧ p.2 = old := by
        have hz : (p.1, p.2) ∈ csv_entries.zip ipa_entries := by
          simpa using hpz
        exact zip_pair_unique csv_entries ipa_entries p.1 new p.2 old hnd
          hz hm hlog
      have hd : g ∈ addDiff p := of_decide_eq_true hdec
      have hpp : p = (new, old) := Prod.ext hpe.1 hpe.2
      rw [hpp] at hd
      exact hd
    · intro hdiff
      refine List.mem_map.mpr
        ⟨(new, old), List.mem_filter.mpr ⟨hm, ?_⟩, rfl⟩
      exact decide_eq_true hdiff
  · rw [hgrm]
    constructor
    · intro hmem
      obtain ⟨p, hpf, hflag⟩ := List.mem_map.mp hmem
      obtain ⟨hpz, hdec⟩ := List.mem_filter.mp hpf
      have hlog : p.1.user_login = new.user_login := flag_inj _ _ hflag
      have hpe : p.1 = new ∧ p.2 = old := by
        have hz : (p.1, p.2) ∈ csv_entries.zip ipa_entries := by
          simpa using hpz
        exact zip_pair_unique csv_entries ipa_entries p.1 new p.2 old hnd
          hz hm hlog
      have hd : g ∈ remDiff p := of_decide_eq_true hdec
      have hpp : p = (new, old) := Prod.ext hpe.1 hpe.2
      rw [hpp] at hd
      exact hd
    · intro hdiff
      refine List.mem_map.mpr
        ⟨(new, old), List.mem_filter.mpr ⟨hm, ?_⟩, rfl⟩
      exact decide_eq_true hdiff
  · intro hgd
    have hnotadd : ∀ p ∈ csv_entries.zip ipa_entries, g ∉ addDiff p := by
      intro p _ hmem
      have h := (mem_sDiff _ _ g).mp hmem
      exact h.2 ((mem_sUnion _ _ g).mpr (Or.inr hgd))
    have hnotrem : ∀ p ∈ csv_entries.zip ipa_entries, g ∉ remDiff p := by
      intro p _ hmem
      have h := (mem_sDiff _ _ g).mp hmem
      exact h.2 ((mem_sUnion _ _ g).mpr (Or.inr hgd))
    have h1 := fudFold_gam_get_none (csv_entries.zip ipa_entries) chgEmpty g
      hnotadd
    have h2 := fudFold_grm_get_none (csv_entries.zip ipa_entries) chgEmpty g
      hnotrem
    exact ⟨h1.trans rfl, h2.trans rfl⟩

/-! ### Concrete witnesses for the hypothesis-bearing theorems -/

/-- A user whose first name changed (modulo trailing whitespace). -/
def c7New : CsvEntry :=
  { user_login := "u7", first_name := "Jane ", last_name := "Doe",
    email_address := "j@x", telephone_number := "",
    mobile_telephone_number := "", member_of_groups := [] }

/-- The directory record paired with `c7New`. -/
def c7Old : IpaRecord :=
  { first_name := "Janet", last_name := "Doe", email_address := "j@x",
    telephone_number := "", mobile_telephone_number := "",
    member_of_groups := [] }

theorem userMod_minimal_witness :
    dictGet (find_user_differences [c7New] [some c7Old]).user_mod "u7"
        = some ["--first=Jane"]
      ∧ userChanges c7New c7Old = ["--first=Jane"] := by
  have h := userMod_minimal [c7New] [some c7Old] c7New c7Old
    (by decide) (by decide)
  exact ⟨h.1.trans (by decide), by decide⟩

/-- A user who is in `alpha` and `beta` per the import but in `beta` and
`gamma` per the directory. -/
def c8New : CsvEntry :=
  { user_login := "u8", first_name := "A", last_name := "B",
    email_address := "", telephone_number := "",
    mobile_telephone_number := "", member_of_groups := ["alpha", "beta"] }

/-- The directory record paired with `c8New`. -/
def c8Old : IpaRecord :=
  { first_name := "A", last_name := "B", email_address := "",
    telephone_number := "", mobile_telephone_number := "",
    member_of_groups := ["beta", "gamma"] }

theorem membership_deltas_witness :
    ("--users=" ++ c8New.user_login)
        ∈ lookupList (find_user_differences [c8New]
            [some c8Old]).group_add_member "alpha"
      ∧ ("--users=" ++ c8New.user_login)
        ∈ lookupList (find_user_differences [c8New]
            [some c8Old]).group_remove_member "gamma"
      ∧ dictGet (find_user_differences [c8New]
          [some c8Old]).group_add_member "ipausers" = none := by
  have h1 := membership_deltas [c8New] [some c8Old] c8New (some c8Old)
    "alpha" (by decide) (by decide)
  have h2 := membership_deltas [c8New] [some c8Old] c8New (some c8Old)
    "gamma" (by decide) (by decide)
  have h3 := membership_deltas [c8New] [some c8Old] c8New (some c8Old)
    "ipausers" (by decide) (by decide)
  exact ⟨h1.1.mpr (by decide), (h2.2.1).mpr (by decide),
         (h3.2.2 (by decide)).1⟩

theorem plan_invariants_witness :
    (¬ ((dictGet (buildPlan [c8New] [some c8Old] []
            (fun _ => .notFound)).user_add "u8").isSome
        ∧ (dictGet (buildPlan [c8New] [some c8Old] []
            (fun _ => .notFound)).user_mod "u8").isSome))
    ∧ ("alpha" ∈ dictKeys (buildPlan [c8New] [some c8Old] []
          (fun _ => .notFound)).group_add →
        "alpha" ∈ dictKeys (buildPlan [c8New] [some c8Old] []
          (fun _ => .notFound)).group_add_member) := by
  have h := plan_invariants [c8New] [some c8Old] [] (fun _ => .notFound)
    (by decide)
  exact ⟨h.1 "u8", h.2 "alpha"⟩

/-! ### C5 — the normalization pipeline preserves the separator count, so
the catalog zip is total -/

/-- Number of group separators in a character list. -/
def countSep : List Char → Nat
  | [] => 0
  | c :: t => (if c = GROUP_SEP then 1 else 0) + countSep t

theorem countSep_append (a b : List Char) :
    countSep (a ++ b) = countSep a + countSep b := by
  induction a with
  | nil => simp [countSep]
  | cons c t ih => simp [countSep, ih, Nat.add_assoc]

theorem countSep_filter_keep (p : Char → Bool) (hp : p GROUP_SEP = true) :
    ∀ l : List Char, countSep (l.filter p) = countSep l := by
  intro l
  induction l with
  | nil => rfl
  | cons c t ih =>
    by_cases hpc : p c
    · simp [List.filter_cons, hpc, countSep, ih]
    · have hc : ¬ c = GROUP_SEP := by
        intro he
        rw [he, hp] at hpc
        exact hpc rfl
      simp [List.filter_cons, hpc, countSep, ih, hc]

theorem countSep_map (f : Char → Char)
    (hf : ∀ c, f c = GROUP_SEP ↔ c = GROUP_SEP) :
    ∀ l : List Char, countSep (l.map f) = countSep l := by
  intro l
  induction l with
  | nil => rfl
  | cons c t ih =>
    show (if f c = GROUP_SEP then 1 else 0) + countSep (t.map f) = _
    rw [ih]
    by_cases hc : c = GROUP_SEP
    · rw [if_pos ((hf c).mpr hc), countSep, if_pos hc]
    · rw [if_neg (fun he => hc ((hf c).mp he)), countSep, if_neg hc]

theorem countSep_flatMap (g : Char → List Char)
    (hg : ∀ c, countSep (g c) = if c = GROUP_SEP then 1 else 0) :
    ∀ l : List Char, countSep (l.flatMap g) = countSep l := by
  intro l
  induction l with
  | nil => rfl
  | cons c t ih =>
    rw [List.flatMap_cons, countSep_append, hg c, ih]
    rfl

theorem countSep_charReplace (pat : Char) (rep : List Char) (l : List Char)
    (hpat : ¬ pat = GROUP_SEP) (hrep : countSep rep = 0) :
    countSep (charReplace pat rep l) = countSep l := by
  apply countSep_flatMap
  intro c
  by_cases hc : c = pat
  · subst hc
    rw [if_pos rfl, hrep, if_neg hpat]
  · rw [if_neg hc]
    show (if c = GROUP_SEP then 1 else 0) + 0 = _
    rw [Nat.add_zero]

theorem pyLowerChar_sep (c : Char) :
    pyLowerChar c = GROUP_SEP ↔ c = GROUP_SEP := by
  unfold pyLowerChar
  split <;> first | decide | rfl

theorem countSep_nfkdChar (c : Char) :
    countSep (nfkdChar c) = if c = GROUP_SEP then 1 else 0 := by
  unfold nfkdChar
  split <;> first | decide | simp [countSep]

theorem countSep_nfkdAscii (l : List Char) :
    countSep (nfkdAscii l) = countSep l := by
  unfold nfkdAscii
  rw [countSep_filter_keep _ (by decide),
      countSep_flatMap nfkdChar countSep_nfkdChar]

theorem flatten_splitWsAux :
    ∀ (l acc : List Char),
      (splitWsAux l acc).flatten
        = acc.reverse ++ l.filter (fun c => !(isPySpace c)) := by
  intro l
  induction l with
  | nil =>
    intro acc
    by_cases h : acc = [] <;> simp [splitWsAux, h]
  | cons c t ih =>
    intro acc
    by_cases hs : isPySpace c
    · by_cases h : acc = []
      · simp [splitWsAux, hs, h, ih, List.filter_cons]
      · simp [splitWsAux, hs, h, ih, List.filter_cons]
    · rw [show splitWsAux (c :: t) acc = splitWsAux t (c :: acc) from by
        simp [splitWsAux, hs]]
      rw [ih (c :: acc)]
      simp [List.filter_cons, hs]

theorem countSep_joinUnd :
    ∀ ts : List (List Char), countSep (joinUnd ts) = countSep ts.flatten := by
  intro ts
  induction ts with
  | nil => rfl
  | cons t ts ih =>
    cases ts with
    | nil => simp [joinUnd, countSep_append]
    | cons t2 ts2 =>
      show countSep (t ++ '_' :: joinUnd (t2 :: ts2)) = _
      rw [countSep_append, List.flatten_cons, countSep_append]
      have h1 : countSep ('_' :: joinUnd (t2 :: ts2))
          = countSep (joinUnd (t2 :: ts2)) := by
        show (if '_' = GROUP_SEP then 1 else 0) + _ = _
        rw [if_neg (by decide), Nat.zero_add]
      rw [h1, ih]

theorem countSep_normalizedName (orig : List Char) :
    countSep (normalizedName orig) = countSep orig := by
  unfold normalizedName
  rw [countSep_filter_keep isLegalGroupChar (by decide),
      countSep_nfkdAscii]
  unfold umlautReplace
  rw [countSep_charReplace _ _ _ (by decide) (by decide),
      countSep_charReplace _ _ _ (by decide) (by decide),
      countSep_charReplace _ _ _ (by decide) (by decide),
      countSep_map pyLowerChar pyLowerChar_sep,
      countSep_joinUnd]
  show countSep (splitWsAux orig []).flatten = countSep orig
  rw [flatten_splitWsAux orig []]
  show countSep (orig.filter fun c => !(isPySpace c)) = countSep orig
  exact countSep_filter_keep _ (by decide) orig

theorem splitOnChar_ne_nil (sep : Char) :
    ∀ l : List Char, splitOnChar sep l ≠ [] := by
  intro l
  cases l with
  | nil => simp [splitOnChar]
  | cons c t =>
    simp only [splitOnChar]
    by_cases h : c = sep
    · simp [h]
    · rw [if_neg h]
      cases hs : splitOnChar sep t <;> simp

theorem length_splitOnChar :
    ∀ l : List Char, (splitOnChar GROUP_SEP l).length = countSep l + 1 := by
  intro l
  induction l with
  | nil => rfl
  | cons c t ih =>
    simp only [splitOnChar]
    by_cases h : c = GROUP_SEP
    · rw [if_pos h]
      show (splitOnChar GROUP_SEP t).length + 1 = _
      rw [ih]
      show countSep t + 1 + 1
          = (if c = GROUP_SEP then 1 else 0) + countSep t + 1
      rw [if_pos h]
      omega
    · rw [if_neg h]
      cases hs : splitOnChar GROUP_SEP t with
      | nil => exact absurd hs (splitOnChar_ne_nil _ t)
      | cons s ss =>
        simp only [hs]
        rw [hs] at ih
        simp only [List.length_cons] at ih
        show ((c :: s) :: ss).length
            = (if c = GROUP_SEP then 1 else 0) + countSep t + 1
        rw [if_neg h]
        simp only [List.length_cons]
        omega

/-- The two segment lists of one raw group field have equal length: the
normalization pipeline neither creates nor destroys separator characters,
so the `zip` feeding the catalog pairs every normalized segment with its
original segment. -/
theorem entryGroupData_lengths (raw : String) :
    (entryGroupData raw).1.length = (entryGroupData raw).2.length := by
  simp only [entryGroupData]
  rw [length_splitOnChar, length_splitOnChar, countSep_normalizedName]

theorem mem_dictKeys_dictUpdate {α : Type} (ps : List (String × α))
    (d : Dict α) (u : String) :
    u ∈ dictKeys (dictUpdate d ps)
      ↔ u ∈ dictKeys d ∨ u ∈ ps.map Prod.fst := by
  induction ps generalizing d with
  | nil => simp [dictUpdate]
  | cons p t ih =>
    show u ∈ dictKeys (dictUpdate (dictAssign d p.1 p.2) t) ↔ _
    rw [ih, mem_dictKeys_dictAssign]
    simp [List.mem_cons]
    tauto

theorem mem_catalog_keys (entries : List RawEntry) (id : String) :
    id ∈ dictKeys (fix_csv_group_names entries).2
      ↔ ∃ e ∈ entries,
          id ∈ (entryPairs e.member_of_groups).map Prod.fst := by
  have h0 : (fix_csv_group_names entries).2
      = entries.foldl
          (fun gd e => dictUpdate gd (entryPairs e.member_of_groups)) [] :=
    rfl
  rw [h0, catalog_eq_update, mem_dictKeys_dictUpdate]
  simp [dictKeys, catalogPairs, List.mem_flatMap, List.mem_map]
  constructor
  · rintro ⟨x, a, ha, hx⟩
    exact ⟨a, ha, x, hx⟩
  · rintro ⟨a, ha, x, hx⟩
    exact ⟨x, a, ha, hx⟩

theorem mem_entryGroups (raw : String) (id : String) :
    id ∈ entryGroups raw
      ↔ ∃ s ∈ (entryGroupData raw).1, ¬ s = [] ∧ String.mk s = id := by
  simp [entryGroups, List.mem_map, List.mem_filter]
  constructor
  · rintro ⟨a, ⟨h1, h2⟩, h3⟩
    exact ⟨a, h1, h2, h3⟩
  · rintro ⟨s, h1, h2, h3⟩
    exact ⟨s, ⟨h1, h2⟩, h3⟩

theorem mk_eq_empty_iff (s : List Char) : String.mk s = "" ↔ s = [] := by
  constructor
  · intro h
    have : (String.mk s).data = ("" : String).data := by rw [h]
    simpa using this
  · intro h
    rw [h]

/-- C5 counterexample: for the raw group field `"!!!"` (whose only segment
normalizes to the empty string), no group id enters `member_of_groups`,
but — contrary to the claim — a GroupCatalog entry **is** created: the
empty string becomes a catalog key, mapped to the original segment. -/
def c5Entry : RawEntry :=
  { user_login := "u5", first_name := "", last_name := "",
    email_address := "", telephone_number := "",
    mobile_telephone_number := "", member_of_groups := "!!!" }

theorem emptyLabel_catalog_entry_refuted :
    dictGet (fix_csv_group_names [c5Entry]).2 "" = some "!!!"
      ∧ ∀ e ∈ (fix_csv_group_names [c5Entry]).1, e.member_of_groups = [] := by
  exact ⟨rfl, by decide⟩

/-- C5, amended: a raw segment that normalizes to the empty string
contributes no canonical id to the record's `member_of_groups`, but it
**does** create a GroupCatalog entry, keyed by the empty string.
Consequently the catalog's key set equals the set of canonical ids
appearing in some record's `member_of_groups` together with possibly the
empty string: restricted to nonempty ids the key set and the membership
ids coincide, and the empty string never occurs in any
`member_of_groups`. -/
theorem catalog_keys_characterized (entries : List RawEntry) (id : String)
    (hne : id ≠ "") :
    (id ∈ dictKeys (fix_csv_group_names entries).2
      ↔ ∃ e ∈ (fix_csv_group_names entries).1, id ∈ e.member_of_groups)
    ∧ ∀ e ∈ (fix_csv_group_names entries).1, "" ∉ e.member_of_groups := by
  have hfst1 : (fix_csv_group_names entries).1 = entries.map toCsvEntry := rfl
  have hmog : ∀ e : RawEntry, (toCsvEntry e).member_of_groups
      = entryGroups e.member_of_groups := fun e => by simp [toCsvEntry]
  constructor
  · rw [mem_catalog_keys, hfst1]
    constructor
    · rintro ⟨e, he, hid⟩
      obtain ⟨p, hp, hpid⟩ := List.mem_map.mp hid
      obtain ⟨q, hq, hqp⟩ := List.mem_map.mp hp
      have hqs : q.1 ∈ (entryGroupData e.member_of_groups).1 :=
        (List.of_mem_zip hq).1
      have hmk : String.mk q.1 = id := by
        rw [← hqp] at hpid
        exact hpid
      have hqne : ¬ q.1 = [] := by
        intro hnil
        rw [hnil] at hmk
        exact hne hmk.symm
      refine ⟨toCsvEntry e, List.mem_map.mpr ⟨e, he, rfl⟩, ?_⟩
      rw [hmog e, mem_entryGroups]
      exact ⟨q.1, hqs, hqne, hmk⟩
    · rintro ⟨e', he', hid⟩
      obtain ⟨e, he, rfl⟩ := List.mem_map.mp he'
      rw [hmog e, mem_entryGroups] at hid
      obtain ⟨s, hs, hsne, hmk⟩ := hid
      refine ⟨e, he, ?_⟩
      have hfst : (entryPairs e.member_of_groups).map Prod.fst
          = (entryGroupData e.member_of_groups).1.map String.mk := by
        unfold entryPairs
        rw [List.map_map]
        have hlen := entryGroupData_lengths e.member_of_groups
        have hz := List.map_fst_zip (entryGroupData e.member_of_groups).1
          (entryGroupData e.member_of_groups).2 (le_of_eq hlen)
        calc ((entryGroupData e.member_of_groups).1.zip
                (entryGroupData e.member_of_groups).2).map
                (Prod.fst ∘ fun p => (String.mk p.1, String.mk p.2))
            = ((entryGroupData e.member_of_groups).1.zip
                (entryGroupData e.member_of_groups).2).map
                (String.mk ∘ Prod.fst) := rfl
          _ = (((entryGroupData e.member_of_groups).1.zip
                (entryGroupData e.member_of_groups).2).map
                Prod.fst).map String.mk := by rw [List.map_map]
          _ = (entryGroupData e.member_of_groups).1.map String.mk := by
                rw [hz]
      rw [hfst]
      exact List.mem_map.mpr ⟨s, hs, hmk⟩
  · rw [hfst1]
    intro e' he' hmem
    obtain ⟨e, he, rfl⟩ := List.mem_map.mp he'
    rw [hmog e, mem_entryGroups] at hmem
    obtain ⟨s, _, hsne, hmk⟩ := hmem
    exact hsne ((mk_eq_empty_iff s).mp hmk)

/-- A batch with one two-segment group field, used to instantiate the
catalog key characterization. -/
def c5Witness : RawEntry :=
  { user_login := "u5w", first_name := "", last_name := "",
    email_address := "", telephone_number := "",
    mobile_telephone_number := "", member_of_groups := "x/y" }

theorem catalog_keys_characterized_witness :
    ("x" ∈ dictKeys (fix_csv_group_names [c5Witness]).2
      ↔ ∃ e ∈ (fix_csv_group_names [c5Witness]).1,
          "x" ∈ e.member_of_groups)
    ∧ ∀ e ∈ (fix_csv_group_names [c5Witness]).1,
        "" ∉ e.member_of_groups :=
  catalog_keys_characterized [c5Witness] "x" (by decide)

end IpaImport
